import Mathlib

/-! Shallow embedding of `pyml_logger/Log.py` (class `Log` and the module-level
`logs_to_dataframe`), together with theorems settling the specification
claims about it.

Modelling conventions:
* Python dicts are insertion-ordered association structures (`Tree` for the
  nested dynamic-value dicts, plain lists of pairs for the static dict and
  the header-index dicts); `d[k] = v` overwrites in place, keeping the
  original position, and appends otherwise.
* Scalar recorded values are modelled as integers (`Value.leaf`); nested
  scope dicts are `Value.node`.
* Operations that can raise in Python return `Except PyErr _`; `IndexError`,
  `TypeError` (from `in` / item assignment on a non-dict) and `KeyError`
  are distinguished.  `set_state` instead returns its post-state together
  with a flag, because its `assert` fires only after `self.t` was mutated.
* Python string primitives used by the source (`split`, `startswith`,
  slicing, `join`) are re-implemented structurally on `List Char` so that
  all definitions evaluate inside the kernel.
-/

namespace PymlLog

/-- Errors the Python runtime would raise in the embedded operations. -/
inductive PyErr where
  | indexError
  | typeError
  | keyError
  deriving DecidableEq

mutual
/-- A dynamic value: a scalar (modelled as an integer) or a nested dict,
embedding the values stored inside `Log.d_var`. -/
inductive Value where
  | leaf : Int → Value
  | node : Tree → Value
/-- An insertion-ordered string-keyed mapping, embedding a Python dict. -/
inductive Tree where
  | nil : Tree
  | cons : String → Value → Tree → Tree
end

deriving instance DecidableEq for Value, Tree

/-- Python `str.split(sep)` on the character list (for a one-character
separator): occurrences of `sep` cut the list, empty pieces are kept, and
the empty input yields one empty piece. -/
def splitChars (sep : Char) : List Char → List (List Char)
  | [] => [[]]
  | c :: rest =>
    match splitChars sep rest with
    | [] => if c = sep then [[], []] else [[c]]
    | g :: gs => if c = sep then [] :: g :: gs else (c :: g) :: gs

/-- Python `s.split(sep)` for a one-character separator. -/
def pySplit (s : String) (sep : Char) : List String :=
  (splitChars sep s.data).map String.mk

/-- Whether the first character list leads the second one. -/
def leadsWith : List Char → List Char → Bool
  | [], _ => true
  | _ :: _, [] => false
  | a :: as, b :: bs => a = b && leadsWith as bs

/-- Python `s.startswith(p)`. -/
def pyStartsWith (s p : String) : Bool := leadsWith p.data s.data

/-- Python `s[n:]`. -/
def pyDrop (s : String) (n : Nat) : String := String.mk (s.data.drop n)

/-- Python `".".join(parts)`. -/
def joinDots : List String → String
  | [] => ""
  | [x] => x
  | x :: y :: rest => x ++ "." ++ joinDots (y :: rest)

/-- Python `k in d` / `d[k]` lookup on a dict. -/
def Tree.find : Tree → String → Option Value
  | .nil, _ => none
  | .cons k v rest, key => if k = key then some v else rest.find key

/-- Python `d[key] = v`: overwrite in place if the key exists, else append. -/
def Tree.setKey : Tree → String → Value → Tree
  | .nil, key, v => .cons key v .nil
  | .cons k w rest, key, v =>
    if k = key then .cons k v rest else .cons k w (rest.setKey key v)

/-- The write path of `Log.add_dynamic_value`: descend along the scope
names, creating an empty dict for each missing scope, and set the key at
the final depth.  Reaching a scalar raises `TypeError` (Python `in` /
item assignment on a non-container). -/
def Tree.setScoped : Tree → List String → String → Value → Except PyErr Tree
  | tr, [], key, v => .ok (tr.setKey key v)
  | tr, s :: rest, key, v =>
    match tr.find s with
    | none => (Tree.setScoped .nil rest key v).map (fun sub => tr.setKey s (.node sub))
    | some (.node m) => (Tree.setScoped m rest key v).map (fun sub => tr.setKey s (.node sub))
    | some (.leaf _) => .error .typeError

/-- Python `s_var[key] = value` on the insertion-ordered static dict. -/
def statSet : List (String × Int) → String → Int → List (String × Int)
  | [], key, v => [(key, v)]
  | (k, w) :: rest, key, v =>
    if k = key then (k, v) :: rest else (k, w) :: statSet rest key v

/-- Python `key in s_var` / `s_var[key]` on the static dict. -/
def statGet : List (String × Int) → String → Option Int
  | [], _ => none
  | (k, w) :: rest, key => if k = key then some w else statGet rest key

/-- Python list indexing `l[i]` index resolution: valid for `-n ≤ i < n`,
with negative indices counting from the end. -/
def pyIdx (n : Nat) (i : Int) : Option Nat :=
  if 0 ≤ i then (if i < (n : Int) then some i.toNat else none)
  else (if 0 ≤ i + n then some (i + n).toNat else none)

/-- The state of `Log.__init__`: static dict `s_var`, per-iteration dynamic
dicts `d_var`, current iteration index `t` (starting at `-1`), and the
scope stack `scopes`. -/
structure Log where
  s_var : List (String × Int)
  d_var : List Tree
  t : Int
  scopes : List String
  deriving DecidableEq

/-- Embedding of `Log.__init__`. -/
def Log.init : Log := { s_var := [], d_var := [], t := -1, scopes := [] }

/-- Embedding of `Log.ITERATION_KEY`. -/
def ITERATION_KEY : String := "_iteration"

/-- Embedding of `Log.add_dynamic_value`: look up `d_var[t]` (Python indexing, so
`IndexError` when no iteration exists), then write through the active
scopes. -/
def Log.add_dynamic_value (log : Log) (key : String) (v : Value) : Except PyErr Log :=
  match pyIdx log.d_var.length log.t with
  | none => .error .indexError
  | some i =>
    match log.d_var[i]? with
    | none => .error .indexError
    | some tree =>
      (tree.setScoped log.scopes key v).map
        (fun tr => { log with d_var := log.d_var.set i tr })

/-- Embedding of `Log.new_iteration`: increment `t`, append an empty dict, record the
reserved iteration key (with the scope stack still as the caller left it),
and only then reset the scope stack. -/
def Log.new_iteration (log : Log) : Except PyErr Log :=
  (Log.add_dynamic_value { log with t := log.t + 1, d_var := log.d_var ++ [.nil] }
      ITERATION_KEY (.leaf (log.t + 1))).map
    (fun l2 => { l2 with scopes := [] })

/-- Embedding of `Log.push_scope`. -/
def Log.push_scope (log : Log) (name : String) : Log :=
  { log with scopes := log.scopes ++ [name] }

/-- The argument of `Log.push_scopes`: Python `None`, a string, or a list
of scope names. -/
inductive ScopesArg where
  | none
  | str : String → ScopesArg
  | list : List String → ScopesArg

/-- The names `Log.push_scopes` actually pushes for a given argument
(characterisation used by the theorems; note Python `"".split(".")`
is `[""]`). -/
def ScopesArg.toNames : ScopesArg → List String
  | .none => []
  | .str s => pySplit s '.'
  | .list l => l

/-- Embedding of `Log.push_scopes`: `None` is a no-op returning 0; a string is split on
`"."`; each resulting name is pushed; the count of pushed names is
returned. -/
def Log.push_scopes (log : Log) (names : ScopesArg) : Log × Nat :=
  match names with
  | .none => (log, 0)
  | .str s =>
    let ns := pySplit s '.'
    (ns.foldl Log.push_scope log, ns.length)
  | .list ns => (ns.foldl Log.push_scope log, ns.length)

/-- Embedding of `Log.pop_scope`: Python `list.pop()`, raising `IndexError` on an empty
stack. -/
def Log.pop_scope (log : Log) : Except PyErr (Log × String) :=
  match log.scopes.getLast? with
  | none => .error .indexError
  | some s => .ok ({ log with scopes := log.scopes.dropLast }, s)

/-- Embedding of `Log.pop_scopes`. -/
def Log.pop_scopes (log : Log) : Nat → Except PyErr Log
  | 0 => .ok log
  | n + 1 => (log.pop_scope).bind (fun p => p.1.pop_scopes n)

/-- Embedding of `Log.add_static_value`. -/
def Log.add_static_value (log : Log) (key : String) (v : Int) : Log :=
  { log with s_var := statSet log.s_var key v }

/-- The loop body of `Log.add_dynamic_values`: add each pair in order. -/
def addAll : Log → List (String × Value) → Except PyErr Log
  | l, [] => .ok l
  | l, kv :: rest => (l.add_dynamic_value kv.1 kv.2).bind (fun l2 => addAll l2 rest)

/-- Embedding of `Log.add_dynamic_values`: push the scope argument, add every pair,
pop the pushed count. -/
def Log.add_dynamic_values (log : Log) (scope_ : ScopesArg)
    (kvs : List (String × Value)) : Except PyErr Log :=
  (addAll (log.push_scopes scope_).1 kvs).bind
    (fun l => l.pop_scopes (log.push_scopes scope_).2)

/-- The scope walk of `Log.get_last_dynamic_value`: follow the active
scopes from the top of the current iteration; a missing scope stops the
walk keeping the candidate; descending into a scalar raises `TypeError`
(Python `in` on a non-container); at each visited level the key, when
present, overwrites the candidate. -/
def gldvWalk (cur : Tree) (key : String) (res : Option Value) :
    List String → Except PyErr (Option Value)
  | [] => .ok res
  | s :: rest =>
    match cur.find s with
    | none => .ok res
    | some (.leaf _) => .error .typeError
    | some (.node m) =>
      gldvWalk m key
        (match m.find key with
         | some v => some v
         | none => res) rest

/-- Embedding of `Log.get_last_dynamic_value`: start from `d_var[t]` (Python indexing),
take the top-level value of the key as the first candidate, then walk the
active scopes. -/
def Log.get_last_dynamic_value (log : Log) (key : String) : Except PyErr (Option Value) :=
  match pyIdx log.d_var.length log.t with
  | none => .error .indexError
  | some i =>
    match log.d_var[i]? with
    | none => .error .indexError
    | some values => gldvWalk values key (values.find key) log.scopes

/-- The segment walk of `Log.get_scoped_value`: a missing key in a dict
returns `none`; a remaining segment under a scalar raises `TypeError`;
a fully consumed path returns whatever it addresses (possibly a nested
dict). -/
def gsvWalk : Value → List String → Except PyErr (Option Value)
  | v, [] => .ok (some v)
  | .leaf _, _ :: _ => .error .typeError
  | .node m, s :: rest =>
    match m.find s with
    | none => .ok none
    | some v => gsvWalk v rest

/-- Embedding of `Log.get_scoped_value`: split the dotted name and walk `d_var[t]`. -/
def Log.get_scoped_value (log : Log) (t : Nat) (name : String) : Except PyErr (Option Value) :=
  match log.d_var[t]? with
  | none => .error .indexError
  | some tree => gsvWalk (.node tree) (pySplit name '.')

mutual
/-- Embedding of `Log._generate_columns_names_from_dict` on one value: a scalar
contributes its own dotted path, a dict contributes its children's
paths. -/
def gcnVal : Value → List String → List String
  | .leaf _, scope => [joinDots scope]
  | .node m, scope => gcnTree m scope
/-- Embedding of `Log._generate_columns_names_from_dict` on a dict: collect the dotted
paths of all entries. -/
def gcnTree : Tree → List String → List String
  | .nil, _ => []
  | .cons k v rest, scope => gcnVal v (scope ++ [k]) ++ gcnTree rest scope
end

/-- Adding one element to a Python set, realised as a duplicate-free
insertion-ordered list. -/
def setAdd (cols : List String) (x : String) : List String :=
  if x ∈ cols then cols else cols ++ [x]

/-- The loop of `Log._generate_columns_names` over the iteration indices
`range(t + 1)`, accumulating a set of column names (`IndexError` when an
index is beyond `d_var`). -/
def gcnAux (log : Log) : List Nat → List String → Except PyErr (List String)
  | [], cols => .ok cols
  | i :: rest, cols =>
    match log.d_var[i]? with
    | none => .error .indexError
    | some tree => gcnAux log rest ((gcnTree tree []).foldl setAdd cols)

/-- Embedding of `Log._generate_columns_names`. -/
def Log.generate_columns_names (log : Log) : Except PyErr (List String) :=
  gcnAux log (List.range (log.t + 1).toNat) []

/-- One cell of `Log.to_extended_array`: an `_s_`-leading column name is
looked up in the static dict (dropping the first three characters;
`KeyError` if absent), the `_iteration` column holds the row's index, any
other name is resolved with `get_scoped_value`. -/
def Log.extCell (log : Log) (t : Nat) (name : String) : Except PyErr (Option Value) :=
  if pyStartsWith name "_s_" then
    match statGet log.s_var (pyDrop name 3) with
    | some v => .ok (some (.leaf v))
    | none => .error .keyError
  else if name = ITERATION_KEY then .ok (some (.leaf (t : Int)))
  else log.get_scoped_value t name

/-- Monadic map over `Except`, written structurally so proofs and the
kernel can unfold it. -/
def exMapM {α β : Type} (f : α → Except PyErr β) : List α → Except PyErr (List β)
  | [] => .ok []
  | a :: rest => (f a).bind (fun b => (exMapM f rest).map (fun bs => b :: bs))

/-- Embedding of `Log.to_extended_array`, returned as a header row paired with the data
rows: the header is `"_iteration"` prepended to the generated column names
followed by the `_s_`-renamed static keys, and each data row is built cell
by cell with `extCell`. -/
def Log.to_extended_array (log : Log) :
    Except PyErr (List String × List (List (Option Value))) :=
  (log.generate_columns_names).bind (fun gen =>
    let names := ITERATION_KEY :: gen ++ log.s_var.map (fun kv => "_s_" ++ kv.1)
    (exMapM (fun t => exMapM (log.extCell t) names)
        (List.range log.d_var.length)).map
      (fun rows => (names, rows)))

/-- The state dict handled by `Log.get_state` / `Log.set_state`. -/
structure LogState where
  t : Int
  d_var : List Tree

/-- Embedding of `Log.get_state`. -/
def Log.get_state (log : Log) : LogState := { t := log.t, d_var := log.d_var }

/-- Embedding of `Log.set_state`: assign `t`, then assert that the iteration list is
empty (a `false` first component models the `AssertionError`, with the
second component the object as the exception leaves it), then append the
incoming iterations. -/
def Log.set_state (log : Log) (st : LogState) : Bool × Log :=
  let log1 : Log := { log with t := st.t }
  if log1.d_var.length = 0 then (true, { log1 with d_var := log1.d_var ++ st.d_var })
  else (false, log1)

/-- A cell of the merged table built by `logs_to_dataframe`. -/
inductive MCell where
  | null
  | logIdx : Nat → MCell
  | logFile : String → MCell
  | val : Value → MCell
  deriving DecidableEq

/-- Python `index[name] = j` on the per-log header-index dict. -/
def idxSet : List (String × Nat) → String → Nat → List (String × Nat)
  | [], key, j => [(key, j)]
  | (k, w) :: rest, key, j =>
    if k = key then (k, j) :: rest else (k, w) :: idxSet rest key j

/-- Python `name in index` / `index[name]` on the header-index dict. -/
def idxGet : List (String × Nat) → String → Option Nat
  | [], _ => none
  | (k, w) :: rest, key => if k = key then some w else idxGet rest key

/-- The header-index dict of `logs_to_dataframe`: each header name mapped
to its position, a repeated name keeping the last position. -/
def buildIndex (names : List String) : List (String × Nat) :=
  names.enum.foldl (fun m p => idxSet m p.2 p.1) []

/-- One cell of a merged row: the two reserved columns are filled from the
log's identity, a column present in the log's own header copies that cell,
anything else stays null. -/
def mergeCell (i : Nat) (fname : String) (index : List (String × Nat))
    (row : List (Option Value)) (cname : String) : Except PyErr MCell :=
  if cname = "_log_file" then .ok (.logFile fname)
  else if cname = "_log_idx" then .ok (.logIdx i)
  else
    match idxGet index cname with
    | none => .ok .null
    | some j =>
      match row[j]? with
      | none => .error .indexError
      | some none => .ok .null
      | some (some v) => .ok (.val v)

/-- Embedding of `logs_to_dataframe` on already-loaded logs (file loading itself is the
persistence collaborator's concern): build every log's extended array,
union the headers in first-occurrence order behind the two reserved
columns, and emit each log's data rows, in log order, aligned to the
combined header. -/
def logs_to_dataframe (logs : List (String × Log)) :
    Except PyErr (List String × List (List MCell)) :=
  (exMapM (fun p => Log.to_extended_array p.2) logs).bind (fun arrays =>
    let allColumns := arrays.foldl (fun acc a => a.1.foldl setAdd acc) []
    let allNames := "_log_idx" :: "_log_file" :: allColumns
    (exMapM
        (fun q => exMapM
          (fun row => exMapM (mergeCell q.1.1 q.2.1 (buildIndex q.1.2.1) row) allNames)
          q.1.2.2)
        (arrays.enum.zip logs)).map
      (fun rowss => (allNames, rowss.flatten)))

/-- Dotted-path resolution as the spec describes it: the value a path
addresses in a tree, or `none` when the path is absent (including when it
would have to continue below a scalar). -/
def resolveVal : Value → List String → Option Value
  | v, [] => some v
  | .leaf _, _ :: _ => none
  | .node m, s :: rest =>
    match m.find s with
    | none => none
    | some v => resolveVal v rest

/-- Whether the dotted-path walk runs into a scalar with segments still
remaining (exactly the situation where `get_scoped_value` raises). -/
def hitsLeaf : Value → List String → Bool
  | _, [] => false
  | .leaf _, _ :: _ => true
  | .node m, s :: rest =>
    match m.find s with
    | none => false
    | some v => hitsLeaf v rest

/-- The length invariant of the spec: the number of recorded iterations is
one more than the current index. -/
def lenInv (log : Log) : Prop := (log.d_var.length : Int) = log.t + 1

/-- A log on which `new_iteration` is called while `"train"` is still on
the scope stack. -/
def logC1 : Except PyErr Log := (Log.init.push_scope "train").new_iteration

/-- The shadow-law scenario: one iteration, `loss = 1` recorded with no
scope active, then `loss = 2` recorded under the pushed scope `"train"`. -/
def logC3 : Except PyErr Log := do
  let l ← Log.new_iteration Log.init
  let l ← l.add_dynamic_value "loss" (.leaf 1)
  let l := l.push_scope "train"
  l.add_dynamic_value "loss" (.leaf 2)

/-- The shadow-law scenario after popping `"train"` and pushing `"eval"`
without recording anything there. -/
def logC3b : Except PyErr Log := do
  let l ← logC3
  let p ← l.pop_scope
  pure (p.1.push_scope "eval")

/-- One iteration holding the scalar `loss = 1` at top level. -/
def treeC4 : Tree := .cons "_iteration" (.leaf 0) (.cons "loss" (.leaf 1) .nil)

/-- A log whose only iteration holds the scalar `loss = 1` at top level. -/
def logC4x : Except PyErr Log := do
  let l ← Log.new_iteration Log.init
  l.add_dynamic_value "loss" (.leaf 1)

/-- One iteration with static `lr = 5` and a dynamic value recorded under
the key `"_s_lr"`, which textually collides with the renamed static
column. -/
def logC6 : Except PyErr Log := do
  let l ← Log.new_iteration Log.init
  let l := l.add_static_value "lr" 5
  l.add_dynamic_value "_s_lr" (.leaf 7)

/-- Two iterations and one static value, for the broadcast witness. -/
def logW6 : Log :=
  { s_var := [("lr", 5)]
    d_var := [.cons "_iteration" (.leaf 0) .nil, .cons "_iteration" (.leaf 1) .nil]
    t := 1
    scopes := [] }

/-- Log A of the merge scenario: two iterations with dynamic column `x`. -/
def logA : Except PyErr Log := do
  let l ← Log.new_iteration Log.init
  let l ← l.add_dynamic_value "x" (.leaf 1)
  let l ← l.new_iteration
  l.add_dynamic_value "x" (.leaf 2)

/-- Log B of the merge scenario: two iterations with dynamic column `y`. -/
def logB : Except PyErr Log := do
  let l ← Log.new_iteration Log.init
  let l ← l.add_dynamic_value "y" (.leaf 3)
  let l ← l.new_iteration
  l.add_dynamic_value "y" (.leaf 4)

/-- The merge of logs A and B in that order. -/
def mergedAB : Except PyErr (List String × List (List MCell)) := do
  let a ← logA
  let b ← logB
  logs_to_dataframe [("a.log", a), ("b.log", b)]

/-- The log after exactly one plain `new_iteration` on a fresh log. -/
def log1c : Log :=
  { s_var := [], d_var := [.cons "_iteration" (.leaf 0) .nil], t := 0, scopes := [] }

/-- An iteration with a nested scope dict under key `"train"`. -/
def treeW10 : Tree :=
  .cons "_iteration" (.leaf 0) (.cons "train" (.node (.cons "loss" (.leaf 2) .nil)) .nil)

/-- A log whose only iteration is `treeW10`. -/
def logW10 : Log := { s_var := [], d_var := [treeW10], t := 0, scopes := [] }

/-! Theorems. -/

/-- The segment walk agrees with the spec-side path resolution: it raises
exactly when the walk meets a scalar with segments remaining, and
otherwise returns what the path addresses. -/
theorem gsvWalk_eq : ∀ (segs : List String) (v : Value),
    gsvWalk v segs =
      if hitsLeaf v segs then .error .typeError else .ok (resolveVal v segs)
  | [], v => by simp [gsvWalk, hitsLeaf, resolveVal]
  | s :: rest, .leaf n => by simp [gsvWalk, hitsLeaf, resolveVal]
  | s :: rest, .node m => by
    simp only [gsvWalk, hitsLeaf, resolveVal]
    cases h : m.find s with
    | none => simp
    | some v2 => simpa using gsvWalk_eq rest v2

/-- A fully resolving path never meets a scalar mid-walk. -/
theorem resolveVal_some_not_hitsLeaf : ∀ (segs : List String) (v w : Value),
    resolveVal v segs = some w → hitsLeaf v segs = false
  | [], v, w => by intro h; simp [hitsLeaf]
  | s :: rest, .leaf n, w => by intro h; simp [resolveVal] at h
  | s :: rest, .node m, w => by
    intro h
    simp only [resolveVal] at h
    simp only [hitsLeaf]
    cases h2 : m.find s with
    | none => simp
    | some v2 =>
      rw [h2] at h
      simpa using resolveVal_some_not_hitsLeaf rest v2 w h

/-- Claim C1 (code bug): calling `new_iteration` while `"train"` is still
on the scope stack records the reserved `_iteration` value nested under
`"train"`; the top level of the fresh iteration does not contain
`_iteration` at all, contradicting the stated top-level guarantee. -/
theorem C1_iteration_key_recorded_under_stale_scope :
    logC1 = .ok { s_var := [],
                  d_var := [.cons "train" (.node (.cons "_iteration" (.leaf 0) .nil)) .nil],
                  t := 0, scopes := [] }
    ∧ logC1.bind (fun l => l.get_scoped_value 0 "_iteration") = .ok none
    ∧ logC1.bind (fun l => l.get_scoped_value 0 "train._iteration") = .ok (some (.leaf 0)) :=
  ⟨rfl, rfl, rfl⟩

/-- Claim C2 (counterexample): on a log with one recorded iteration,
`set_state` with incoming index 5 fails its assertion, yet the log's
current index has already been overwritten from 0 to 5 on the error
path. -/
theorem C2_counterexample :
    Log.new_iteration Log.init = .ok log1c
    ∧ (log1c.set_state { t := 5, d_var := [] }).1 = false
    ∧ (log1c.set_state { t := 5, d_var := [] }).2.t = 5
    ∧ log1c.t = 0 :=
  ⟨rfl, rfl, rfl, rfl⟩

/-- Claim C2 (amended): on a log with a non-empty iteration sequence,
`set_state` fails its assertion and leaves the iteration sequence
unchanged, but the current index has already been overwritten with the
incoming state's index. -/
theorem C2_set_state_not_empty (log : Log) (st : LogState) (h : log.d_var ≠ []) :
    (log.set_state st).1 = false
    ∧ (log.set_state st).2.d_var = log.d_var
    ∧ (log.set_state st).2.t = st.t := by
  have hlen : ¬ log.d_var.length = 0 := by
    simpa using h
  unfold Log.set_state
  rw [if_neg hlen]
  exact ⟨rfl, rfl, rfl⟩

/-- Witness for C2: the amended theorem applied to the concrete
one-iteration log and incoming index 5. -/
theorem C2_set_state_not_empty_witness :
    (log1c.set_state { t := 5, d_var := [] }).1 = false
    ∧ (log1c.set_state { t := 5, d_var := [] }).2.t = 5 := by
  have h := C2_set_state_not_empty log1c { t := 5, d_var := [] } (by decide)
  exact ⟨h.1, h.2.2⟩

/-- Claim C3: with `loss = 1` at top level and `loss = 2` under the active
scope `"train"`, the shadowed lookup returns 2; after popping `"train"`
and pushing the not-yet-existing scope `"eval"`, it returns 1 — the walk
halts at the missing scope keeping the top-level candidate. -/
theorem C3_shadowed_lookup :
    logC3.map (fun l => l.scopes) = .ok ["train"]
    ∧ logC3.bind (fun l => l.get_last_dynamic_value "loss") = .ok (some (.leaf 2))
    ∧ logC3b.map (fun l => l.scopes) = .ok ["eval"]
    ∧ logC3b.bind (fun l => l.get_last_dynamic_value "loss") = .ok (some (.leaf 1)) :=
  ⟨rfl, rfl, rfl, rfl⟩

/-- Claim C4 (counterexample): `"loss.x"` is absent from an iteration
whose top level holds the scalar `loss = 1`, yet `get_scoped_value`
raises `TypeError` instead of returning null, because the walk applies
`in` to the scalar. -/
theorem C4_counterexample :
    logC4x = .ok { s_var := [], d_var := [treeC4], t := 0, scopes := [] }
    ∧ resolveVal (.node treeC4) (pySplit "loss.x" '.') = none
    ∧ Log.get_scoped_value { s_var := [], d_var := [treeC4], t := 0, scopes := [] } 0 "loss.x"
        = .error .typeError
    ∧ Log.get_scoped_value { s_var := [], d_var := [treeC4], t := 0, scopes := [] } 0 "loss.x"
        ≠ .ok none := by
  refine ⟨rfl, rfl, rfl, ?_⟩
  intro h
  rw [show Log.get_scoped_value { s_var := [], d_var := [treeC4], t := 0, scopes := [] } 0 "loss.x"
        = .error .typeError from rfl] at h
  exact absurd h (by simp)

/-- Claim C4 (amended): for an in-range iteration, a dotted name absent
from the tree resolves to null — provided the walk never meets a scalar
with segments remaining; when it does meet one, `get_scoped_value` raises
`TypeError` instead. -/
theorem C4_absent_name_null (log : Log) (t : Nat) (tree : Tree) (name : String)
    (ht : log.d_var[t]? = some tree) :
    (resolveVal (.node tree) (pySplit name '.') = none →
      hitsLeaf (.node tree) (pySplit name '.') = false →
      log.get_scoped_value t name = .ok none)
    ∧ (hitsLeaf (.node tree) (pySplit name '.') = true →
      log.get_scoped_value t name = .error .typeError) := by
  unfold Log.get_scoped_value
  rw [ht]
  constructor
  · intro h1 h2
    show gsvWalk (Value.node tree) (pySplit name '.') = Except.ok none
    rw [gsvWalk_eq, h2, h1]
    simp
  · intro h1
    show gsvWalk (Value.node tree) (pySplit name '.') = Except.error PyErr.typeError
    rw [gsvWalk_eq, h1]
    simp

/-- Witness for C4: the amended theorem applied to the one-iteration log
`log1c` and the absent name `"b"`. -/
theorem C4_absent_name_null_witness :
    Log.get_scoped_value log1c 0 "b" = .ok none :=
  (C4_absent_name_null log1c 0 (.cons "_iteration" (.leaf 0) .nil) "b" rfl).1 rfl rfl

/-- Claim C10: a dotted name whose full path addresses a nested dict makes
`get_scoped_value` return that nested dict itself — not null and not an
error. -/
theorem C10_internal_node_returned (log : Log) (t : Nat) (tree : Tree)
    (name : String) (m : Tree)
    (ht : log.d_var[t]? = some tree)
    (hres : resolveVal (.node tree) (pySplit name '.') = some (.node m)) :
    log.get_scoped_value t name = .ok (some (.node m)) := by
  unfold Log.get_scoped_value
  rw [ht]
  show gsvWalk (Value.node tree) (pySplit name '.') = Except.ok (some (Value.node m))
  rw [gsvWalk_eq, resolveVal_some_not_hitsLeaf _ _ _ hres, hres]
  simp

/-- Witness for C10: the name `"train"` addresses the nested scope dict of
`logW10` and is returned as that dict. -/
theorem C10_internal_node_returned_witness :
    Log.get_scoped_value logW10 0 "train" = .ok (some (.node (.cons "loss" (.leaf 2) .nil))) :=
  C10_internal_node_returned logW10 0 treeW10 "train" (.cons "loss" (.leaf 2) .nil) rfl rfl

/-- Folding `push_scope` appends the pushed names to the scope stack and
changes nothing else. -/
theorem foldl_push_scope : ∀ (ns : List String) (log : Log),
    ns.foldl Log.push_scope log = { log with scopes := log.scopes ++ ns }
  | [], log => by simp
  | a :: ns, log => by
    rw [List.foldl_cons, foldl_push_scope ns]
    simp [Log.push_scope]

/-- Popping exactly the names appended on top of a base stack restores the
log. -/
theorem pop_scopes_append : ∀ (ns : List String) (log : Log) (base : List String),
    log.scopes = base ++ ns → log.pop_scopes ns.length = .ok { log with scopes := base } := by
  intro ns
  induction ns using List.reverseRecOn with
  | nil =>
    intro log base h
    simp only [List.append_nil] at h
    rw [← h]
    rfl
  | append_singleton ms a ih =>
    intro log base h
    have hlen : (ms ++ [a]).length = ms.length + 1 := by simp
    rw [hlen]
    show (log.pop_scope).bind (fun p => p.1.pop_scopes ms.length) = _
    have hpop : log.pop_scope = .ok ({ log with scopes := base ++ ms }, a) := by
      unfold Log.pop_scope
      rw [h, ← List.append_assoc, List.getLast?_concat, List.dropLast_concat]
    rw [hpop]
    show Log.pop_scopes { log with scopes := base ++ ms } ms.length = _
    exact ih { log with scopes := base ++ ms } base rfl

/-- Claim C5 (counterexample): `push_scopes` on the empty string is not a
no-op — Python splits `""` into `[""]`, so one empty-named scope is pushed
and 1 is returned, not 0. -/
theorem C5_counterexample :
    (Log.init.push_scopes (.str "")).2 = 1
    ∧ (Log.init.push_scopes (.str "")).1.scopes = [""]
    ∧ ¬((Log.init.push_scopes (.str "")).2 = 0
        ∧ (Log.init.push_scopes (.str "")).1.scopes = Log.init.scopes) := by
  decide

/-- Claim C5 (amended): `push_scopes` appends exactly the names determined
by its argument and returns their count, so popping that count restores
the log; `None` and the empty list push nothing, but the empty string
pushes one empty-named scope. -/
theorem C5_push_scopes_count (log : Log) (names : ScopesArg) :
    (log.push_scopes names).1.scopes = log.scopes ++ names.toNames
    ∧ (log.push_scopes names).2 = names.toNames.length
    ∧ (log.push_scopes names).1.pop_scopes (log.push_scopes names).2 = .ok log := by
  have h1 : (log.push_scopes names).1 = { log with scopes := log.scopes ++ names.toNames } := by
    cases names with
    | none => simp [Log.push_scopes, ScopesArg.toNames]
    | str s => simp [Log.push_scopes, ScopesArg.toNames, foldl_push_scope]
    | list l => simp [Log.push_scopes, ScopesArg.toNames, foldl_push_scope]
  have h2 : (log.push_scopes names).2 = names.toNames.length := by
    cases names <;> rfl
  refine ⟨by rw [h1], h2, ?_⟩
  rw [h1, h2]
  exact pop_scopes_append names.toNames { log with scopes := log.scopes ++ names.toNames } log.scopes rfl

/-- Lemma: a succeeding `exMapM` maps each position of the input to a successful
application at the same position of the output. -/
theorem exMapM_ok_nth {α β : Type} (f : α → Except PyErr β) :
    ∀ (l : List α) (r : List β), exMapM f l = .ok r →
      ∀ (i : Nat) (a : α), l[i]? = some a → ∃ b, f a = .ok b ∧ r[i]? = some b := by
  intro l
  induction l with
  | nil => intro r _ i a ha; simp at ha
  | cons x xs ih =>
    intro r hr i a ha
    rw [show exMapM f (x :: xs) = (f x).bind (fun b => (exMapM f xs).map (fun bs => b :: bs)) from rfl] at hr
    cases hx : f x with
    | error e => rw [hx] at hr; exact absurd hr (by simp [Except.bind])
    | ok b =>
      rw [hx] at hr
      cases hxs : exMapM f xs with
      | error e => rw [hxs] at hr; exact absurd hr (by simp [Except.bind, Except.map])
      | ok bs =>
        rw [hxs] at hr
        have hr2 : b :: bs = r := by
          simpa [Except.bind, Except.map] using hr
        cases i with
        | zero =>
          simp only [List.getElem?_cons_zero] at ha
          cases ha
          exact ⟨b, hx, by rw [← hr2]; simp⟩
        | succ j =>
          simp only [List.getElem?_cons_succ] at ha
          obtain ⟨c, hc1, hc2⟩ := ih bs hxs j a ha
          exact ⟨c, hc1, by rw [← hr2]; simpa using hc2⟩

/-- Every element of a successful `exMapM` output comes from a successful
application to some input element. -/
theorem exMapM_ok_mem {α β : Type} (f : α → Except PyErr β) :
    ∀ (l : List α) (r : List β), exMapM f l = .ok r →
      ∀ b ∈ r, ∃ a ∈ l, f a = .ok b := by
  intro l
  induction l with
  | nil =>
    intro r hr b hb
    rw [show exMapM f ([] : List α) = .ok [] from rfl] at hr
    cases hr
    simp at hb
  | cons x xs ih =>
    intro r hr b hb
    rw [show exMapM f (x :: xs) = (f x).bind (fun c => (exMapM f xs).map (fun bs => c :: bs)) from rfl] at hr
    cases hx : f x with
    | error e => rw [hx] at hr; exact absurd hr (by simp [Except.bind])
    | ok c =>
      rw [hx] at hr
      cases hxs : exMapM f xs with
      | error e => rw [hxs] at hr; exact absurd hr (by simp [Except.bind, Except.map])
      | ok bs =>
        rw [hxs] at hr
        have hr2 : c :: bs = r := by
          simpa [Except.bind, Except.map] using hr
        rw [← hr2] at hb
        rcases List.mem_cons.mp hb with h | h
        · exact ⟨x, List.mem_cons_self x xs, by rw [hx, h]⟩
        · obtain ⟨a, ha1, ha2⟩ := ih bs hxs b h
          exact ⟨a, List.mem_cons_of_mem x ha1, ha2⟩

/-- Destructuring a successful `to_extended_array`: the header is the
reserved iteration name, the generated names, then the renamed statics,
and the rows are the cell table over `range (length d_var)`. -/
theorem to_extended_array_ok (log : Log) (hdr : List String)
    (rows : List (List (Option Value)))
    (hok : log.to_extended_array = .ok (hdr, rows)) :
    ∃ gen, log.generate_columns_names = .ok gen
      ∧ hdr = ITERATION_KEY :: gen ++ log.s_var.map (fun kv => "_s_" ++ kv.1)
      ∧ exMapM (fun t => exMapM (log.extCell t) hdr) (List.range log.d_var.length) = .ok rows := by
  unfold Log.to_extended_array at hok
  cases hg : log.generate_columns_names with
  | error e => rw [hg] at hok; exact absurd hok (by simp [Except.bind])
  | ok gen =>
    rw [hg] at hok
    simp only [Except.bind] at hok
    cases he : exMapM
        (fun t => exMapM (log.extCell t)
          (ITERATION_KEY :: gen ++ log.s_var.map (fun kv => "_s_" ++ kv.1)))
        (List.range log.d_var.length) with
    | error e => rw [he] at hok; exact absurd hok (by simp [Except.map])
    | ok rows0 =>
      rw [he] at hok
      have hpair : (ITERATION_KEY :: gen ++ log.s_var.map (fun kv => "_s_" ++ kv.1), rows0)
          = (hdr, rows) := by
        simpa [Except.map] using hok
      have hh : ITERATION_KEY :: gen ++ log.s_var.map (fun kv => "_s_" ++ kv.1) = hdr :=
        congrArg Prod.fst hpair
      have hrows : rows0 = rows := congrArg Prod.snd hpair
      refine ⟨gen, rfl, hh.symm, ?_⟩
      rw [← hh, ← hrows]
      exact he

/-- Claim C6 (counterexample): with static `lr = 5` and a dynamic value 7
recorded under the key `"_s_lr"`, the extended array resolves the
generated `"_s_lr"` column from the static dict (both occurrences hold 5);
the recorded dynamic value 7, still present in the tree, appears in no
cell. -/
theorem C6_counterexample :
    logC6.bind Log.to_extended_array
      = .ok (["_iteration", "_iteration", "_s_lr", "_s_lr"],
             [[some (.leaf 0), some (.leaf 0), some (.leaf 5), some (.leaf 5)]])
    ∧ logC6.bind (fun l => l.get_scoped_value 0 "_s_lr") = .ok (some (.leaf 7)) :=
  ⟨rfl, rfl⟩

/-- Claim C6 (amended): in a successful extended array, every column whose
name leads with `_s_` — the renamed statics and any dynamic column that
textually leads with `_s_` — holds, in every data row, the one static
value of the key obtained by dropping the prefix; dynamic columns leading
with `_s_` are thus resolved from the static dict, not from the iteration
tree. -/
theorem C6_static_broadcast (log : Log) (hdr : List String)
    (rows : List (List (Option Value)))
    (hok : log.to_extended_array = .ok (hdr, rows)) :
    ∀ row ∈ rows, ∀ (i : Nat) (name : String), hdr[i]? = some name →
      pyStartsWith name "_s_" = true →
      ∃ v, statGet log.s_var (pyDrop name 3) = some v
        ∧ row[i]? = some (some (Value.leaf v)) := by
  obtain ⟨gen, hg, hhdr, he⟩ := to_extended_array_ok log hdr rows hok
  intro row hrow i name hname hpre
  obtain ⟨t, ht, hrowok⟩ := exMapM_ok_mem _ _ _ he row hrow
  obtain ⟨cell, hcell, hri⟩ := exMapM_ok_nth _ _ _ hrowok i name hname
  unfold Log.extCell at hcell
  rw [hpre] at hcell
  cases hs : statGet log.s_var (pyDrop name 3) with
  | none => rw [hs] at hcell; simp at hcell
  | some v =>
    rw [hs] at hcell
    simp at hcell
    exact ⟨v, rfl, by rw [hri, ← hcell]⟩

/-- Witness for C6: in the concrete two-iteration log with static
`lr = 5`, the theorem yields the broadcast value 5 in the `_s_lr` cell of
the second data row. -/
theorem C6_static_broadcast_witness :
    ([some (Value.leaf 1), some (Value.leaf 1), some (Value.leaf 5)]
        : List (Option Value))[2]? = some (some (Value.leaf 5)) := by
  have h := C6_static_broadcast logW6 ["_iteration", "_iteration", "_s_lr"]
    [[some (.leaf 0), some (.leaf 0), some (.leaf 5)],
     [some (.leaf 1), some (.leaf 1), some (.leaf 5)]] rfl
    [some (.leaf 1), some (.leaf 1), some (.leaf 5)] (by simp) 2 "_s_lr" rfl rfl
  obtain ⟨v, hv, hrow⟩ := h
  rw [show statGet logW6.s_var (pyDrop "_s_lr" 3) = some 5 from rfl] at hv
  cases hv
  exact hrow

/-- A successful `add_dynamic_value` only rewrites the tree at the current
index: the iteration count, current index, scope stack and statics are
unchanged. -/
theorem add_dynamic_value_ok (log : Log) (k : String) (v : Value) (l2 : Log)
    (h : log.add_dynamic_value k v = .ok l2) :
    l2.d_var.length = log.d_var.length ∧ l2.t = log.t
    ∧ l2.scopes = log.scopes ∧ l2.s_var = log.s_var := by
  unfold Log.add_dynamic_value at h
  split at h
  · exact absurd h (by simp)
  · rename_i i hi
    split at h
    · exact absurd h (by simp)
    · rename_i tree htree
      cases h3 : tree.setScoped log.scopes k v with
      | error e => rw [h3] at h; exact absurd h (by simp [Except.map])
      | ok tr =>
        rw [h3] at h
        have h4 : { log with d_var := log.d_var.set i tr } = l2 := by
          simpa [Except.map] using h
        rw [← h4]
        simp

/-- A successful `new_iteration` appends exactly one iteration and
advances the current index by exactly one. -/
theorem new_iteration_ok (log l2 : Log) (h : log.new_iteration = .ok l2) :
    l2.d_var.length = log.d_var.length + 1 ∧ l2.t = log.t + 1
    ∧ l2.s_var = log.s_var := by
  unfold Log.new_iteration at h
  cases h1 : Log.add_dynamic_value { log with t := log.t + 1, d_var := log.d_var ++ [.nil] }
      ITERATION_KEY (.leaf (log.t + 1)) with
  | error e => rw [h1] at h; exact absurd h (by simp [Except.map])
  | ok l3 =>
    rw [h1] at h
    have h4 := add_dynamic_value_ok _ _ _ _ h1
    have h5 : { l3 with scopes := ([] : List String) } = l2 := by
      simpa [Except.map] using h
    rw [← h5]
    refine ⟨?_, ?_, ?_⟩
    · show l3.d_var.length = log.d_var.length + 1
      rw [h4.1]
      simp
    · exact h4.2.1
    · exact h4.2.2.2

/-- A successful `pop_scope` only shortens the scope stack. -/
theorem pop_scope_ok (log l2 : Log) (s : String) (h : log.pop_scope = .ok (l2, s)) :
    l2.d_var = log.d_var ∧ l2.t = log.t ∧ l2.s_var = log.s_var := by
  unfold Log.pop_scope at h
  cases h1 : log.scopes.getLast? with
  | none => rw [h1] at h; exact absurd h (by simp)
  | some s2 =>
    rw [h1] at h
    have h2 : ({ log with scopes := log.scopes.dropLast }, s2) = (l2, s) := by
      simpa using h
    have h3 : { log with scopes := log.scopes.dropLast } = l2 := congrArg Prod.fst h2
    rw [← h3]
    exact ⟨rfl, rfl, rfl⟩

/-- A successful `pop_scopes` only shortens the scope stack. -/
theorem pop_scopes_ok : ∀ (n : Nat) (log l2 : Log), log.pop_scopes n = .ok l2 →
    l2.d_var = log.d_var ∧ l2.t = log.t ∧ l2.s_var = log.s_var
  | 0, log, l2 => by
    intro h
    have h2 : log = l2 := by simpa [Log.pop_scopes] using h
    rw [← h2]
    exact ⟨rfl, rfl, rfl⟩
  | n + 1, log, l2 => by
    intro h
    rw [show Log.pop_scopes log (n + 1)
        = (log.pop_scope).bind (fun p => p.1.pop_scopes n) from rfl] at h
    cases h1 : log.pop_scope with
    | error e => rw [h1] at h; exact absurd h (by simp [Except.bind])
    | ok p =>
      rw [h1] at h
      have h2 : p.1.pop_scopes n = .ok l2 := by simpa [Except.bind] using h
      have h3 := pop_scope_ok log p.1 p.2 (by rw [h1])
      have h4 := pop_scopes_ok n p.1 l2 h2
      exact ⟨h4.1.trans h3.1, h4.2.1.trans h3.2.1, h4.2.2.trans h3.2.2⟩

/-- A successful `addAll` run keeps the iteration count, current index,
scope stack and statics fixed. -/
theorem addAll_ok : ∀ (kvs : List (String × Value)) (log l2 : Log),
    addAll log kvs = .ok l2 →
    l2.d_var.length = log.d_var.length ∧ l2.t = log.t
    ∧ l2.scopes = log.scopes ∧ l2.s_var = log.s_var
  | [], log, l2 => by
    intro h
    have h2 : log = l2 := by simpa [addAll] using h
    rw [← h2]
    exact ⟨rfl, rfl, rfl, rfl⟩
  | kv :: kvs, log, l2 => by
    intro h
    rw [show addAll log (kv :: kvs)
        = (log.add_dynamic_value kv.1 kv.2).bind (fun l3 => addAll l3 kvs) from rfl] at h
    cases h1 : log.add_dynamic_value kv.1 kv.2 with
    | error e => rw [h1] at h; exact absurd h (by simp [Except.bind])
    | ok l3 =>
      rw [h1] at h
      have h2 : addAll l3 kvs = .ok l2 := by simpa [Except.bind] using h
      have h3 := add_dynamic_value_ok log kv.1 kv.2 l3 h1
      have h4 := addAll_ok kvs l3 l2 h2
      exact ⟨h4.1.trans h3.1, h4.2.1.trans h3.2.1,
        h4.2.2.1.trans h3.2.2.1, h4.2.2.2.trans h3.2.2.2⟩

/-- Lemma: `push_scopes` only changes the scope stack of the log it returns. -/
theorem push_scopes_fst_fields (log : Log) (names : ScopesArg) :
    (log.push_scopes names).1.d_var = log.d_var ∧ (log.push_scopes names).1.t = log.t
    ∧ (log.push_scopes names).1.s_var = log.s_var := by
  cases names with
  | none => exact ⟨rfl, rfl, rfl⟩
  | str s => rw [show (log.push_scopes (.str s)).1
      = (pySplit s '.').foldl Log.push_scope log from rfl, foldl_push_scope]; exact ⟨rfl, rfl, rfl⟩
  | list l => rw [show (log.push_scopes (.list l)).1
      = l.foldl Log.push_scope log from rfl, foldl_push_scope]; exact ⟨rfl, rfl, rfl⟩

/-- Claim C8: the length invariant `length iterations = currentIndex + 1`
is preserved by every recording operation; `new_iteration` advances the
current index by exactly one, and no other recording operation changes
it. -/
theorem C8_length_invariant (log : Log) (hinv : lenInv log) :
    (∀ l2, log.new_iteration = .ok l2 → lenInv l2 ∧ l2.t = log.t + 1)
    ∧ (∀ k v, lenInv (log.add_static_value k v) ∧ (log.add_static_value k v).t = log.t)
    ∧ (∀ k v l2, log.add_dynamic_value k v = .ok l2 → lenInv l2 ∧ l2.t = log.t)
    ∧ (∀ sc kvs l2, log.add_dynamic_values sc kvs = .ok l2 → lenInv l2 ∧ l2.t = log.t)
    ∧ (∀ s, lenInv (log.push_scope s) ∧ (log.push_scope s).t = log.t)
    ∧ (∀ ns, lenInv (log.push_scopes ns).1 ∧ (log.push_scopes ns).1.t = log.t)
    ∧ (∀ l2 s, log.pop_scope = .ok (l2, s) → lenInv l2 ∧ l2.t = log.t)
    ∧ (∀ n l2, log.pop_scopes n = .ok l2 → lenInv l2 ∧ l2.t = log.t) := by
  unfold lenInv at hinv
  refine ⟨?_, ?_, ?_, ?_, ?_, ?_, ?_, ?_⟩
  · intro l2 h
    have h2 := new_iteration_ok log l2 h
    constructor
    · unfold lenInv
      rw [h2.1, h2.2.1]
      push_cast
      omega
    · exact h2.2.1
  · intro k v
    exact ⟨hinv, rfl⟩
  · intro k v l2 h
    have h2 := add_dynamic_value_ok log k v l2 h
    constructor
    · unfold lenInv
      rw [h2.1, h2.2.1]
      exact hinv
    · exact h2.2.1
  · intro sc kvs l2 h
    unfold Log.add_dynamic_values at h
    cases h1 : addAll (log.push_scopes sc).1 kvs with
    | error e => rw [h1] at h; exact absurd h (by simp [Except.bind])
    | ok l3 =>
      rw [h1] at h
      have h2 : l3.pop_scopes (log.push_scopes sc).2 = .ok l2 := by
        simpa [Except.bind] using h
      have h3 := push_scopes_fst_fields log sc
      have h4 := addAll_ok kvs (log.push_scopes sc).1 l3 h1
      have h5 := pop_scopes_ok (log.push_scopes sc).2 l3 l2 h2
      have hlen : l2.d_var.length = log.d_var.length := by
        rw [h5.1, h4.1, h3.1]
      have ht : l2.t = log.t := by
        rw [h5.2.1, h4.2.1, h3.2.1]
      constructor
      · unfold lenInv
        rw [hlen, ht]
        exact hinv
      · exact ht
  · intro s
    exact ⟨hinv, rfl⟩
  · intro ns
    have h3 := push_scopes_fst_fields log ns
    constructor
    · unfold lenInv
      rw [h3.1, h3.2.1]
      exact hinv
    · exact h3.2.1
  · intro l2 s h
    have h2 := pop_scope_ok log l2 s h
    constructor
    · unfold lenInv
      rw [h2.1, h2.2.1]
      exact hinv
    · exact h2.2.1
  · intro n l2 h
    have h2 := pop_scopes_ok n log l2 h
    constructor
    · unfold lenInv
      rw [h2.1, h2.2.1]
      exact hinv
    · exact h2.2.1

/-- Witness for C8: applied to the fresh log, for the concrete
`new_iteration` result and a concrete `push_scope`. -/
theorem C8_length_invariant_witness :
    (lenInv log1c ∧ log1c.t = Log.init.t + 1)
    ∧ (lenInv (Log.init.push_scope "a") ∧ (Log.init.push_scope "a").t = Log.init.t) := by
  have h := C8_length_invariant Log.init (by unfold lenInv; decide)
  exact ⟨h.1 log1c rfl, h.2.2.2.2.1 "a"⟩

/-- Lemma: `setAdd` keeps existing members. -/
theorem mem_setAdd_of_mem (cols : List String) (p x : String) (h : x ∈ cols) :
    x ∈ setAdd cols p := by
  unfold setAdd
  split
  · exact h
  · exact List.mem_append_left _ h

/-- Lemma: `setAdd` contains the added element. -/
theorem self_mem_setAdd (cols : List String) (p : String) : p ∈ setAdd cols p := by
  unfold setAdd
  split
  · assumption
  · exact List.mem_append_right _ (List.mem_singleton.mpr rfl)

/-- Lemma: `setAdd` preserves freedom from duplicates. -/
theorem nodup_setAdd (cols : List String) (p : String) (h : cols.Nodup) :
    (setAdd cols p).Nodup := by
  unfold setAdd
  split
  · exact h
  · rename_i hp
    rw [List.nodup_append]
    refine ⟨h, List.nodup_singleton p, ?_⟩
    intro b hb hbp
    rw [List.mem_singleton] at hbp
    rw [hbp] at hb
    exact hp hb

/-- Folding `setAdd` keeps existing members. -/
theorem mem_foldl_setAdd_left : ∀ (ps cols : List String) (x : String),
    x ∈ cols → x ∈ ps.foldl setAdd cols
  | [], cols, x => fun h => h
  | p :: ps, cols, x => fun h => by
    rw [List.foldl_cons]
    exact mem_foldl_setAdd_left ps (setAdd cols p) x (mem_setAdd_of_mem cols p x h)

/-- Folding `setAdd` contains every folded element. -/
theorem mem_foldl_setAdd_self : ∀ (ps cols : List String) (x : String),
    x ∈ ps → x ∈ ps.foldl setAdd cols
  | [], cols, x => by intro h; simp at h
  | p :: ps, cols, x => by
    intro h
    rw [List.foldl_cons]
    rcases List.mem_cons.mp h with h2 | h2
    · rw [h2]
      exact mem_foldl_setAdd_left ps (setAdd cols p) p (self_mem_setAdd cols p)
    · exact mem_foldl_setAdd_self ps (setAdd cols p) x h2

/-- Folding `setAdd` preserves freedom from duplicates. -/
theorem nodup_foldl_setAdd : ∀ (ps cols : List String), cols.Nodup →
    (ps.foldl setAdd cols).Nodup
  | [], cols => fun h => h
  | p :: ps, cols => fun h => by
    rw [List.foldl_cons]
    exact nodup_foldl_setAdd ps (setAdd cols p) (nodup_setAdd cols p h)

/-- A successful `gcnAux` run keeps whatever was already in the
accumulated set. -/
theorem gcnAux_ok_sub (log : Log) : ∀ (idxs : List Nat) (cols g : List String),
    gcnAux log idxs cols = .ok g → ∀ x ∈ cols, x ∈ g
  | [], cols, g => by
    intro h x hx
    have h2 : cols = g := by simpa [gcnAux] using h
    rw [← h2]
    exact hx
  | i :: rest, cols, g => by
    intro h x hx
    unfold gcnAux at h
    split at h
    · exact absurd h (by simp)
    · rename_i tree htree
      exact gcnAux_ok_sub log rest _ g h x (mem_foldl_setAdd_left _ _ _ hx)

/-- A successful `gcnAux` run contains every path of every tree whose
index it visits. -/
theorem gcnAux_ok_mem (log : Log) : ∀ (idxs : List Nat) (cols g : List String),
    gcnAux log idxs cols = .ok g → ∀ i ∈ idxs, ∀ tree, log.d_var[i]? = some tree →
    ∀ p ∈ gcnTree tree [], p ∈ g
  | [], cols, g => by
    intro _ i hi
    simp at hi
  | j :: rest, cols, g => by
    intro h i hi tree htree p hp
    unfold gcnAux at h
    split at h
    · exact absurd h (by simp)
    · rename_i tr2 htr2
      rcases List.mem_cons.mp hi with heq | hmem
      · rw [heq] at htree
        rw [htree] at htr2
        cases htr2
        exact gcnAux_ok_sub log rest _ g h p (mem_foldl_setAdd_self _ _ _ hp)
      · exact gcnAux_ok_mem log rest _ g h i hmem tree htree p hp

/-- A successful `gcnAux` run starting from a duplicate-free set is
duplicate-free. -/
theorem gcnAux_ok_nodup (log : Log) : ∀ (idxs : List Nat) (cols g : List String),
    gcnAux log idxs cols = .ok g → cols.Nodup → g.Nodup
  | [], cols, g => by
    intro h hn
    have h2 : cols = g := by simpa [gcnAux] using h
    rw [← h2]
    exact hn
  | i :: rest, cols, g => by
    intro h hn
    unfold gcnAux at h
    split at h
    · exact absurd h (by simp)
    · rename_i tree htree
      exact gcnAux_ok_nodup log rest _ g h (nodup_foldl_setAdd _ _ hn)

/-- A key held as a top-level scalar appears among the dotted paths of its
tree. -/
theorem mem_gcnTree_of_find_leaf (key : String) (n : Int) :
    ∀ (tree : Tree), tree.find key = some (.leaf n) → key ∈ gcnTree tree []
  | .nil => by
    intro h
    simp [Tree.find] at h
  | .cons k v rest => by
    intro h
    rw [show Tree.find (.cons k v rest) key
        = if k = key then some v else rest.find key from rfl] at h
    by_cases hk : k = key
    · rw [if_pos hk] at h
      have hv : v = .leaf n := by simpa using h
      rw [show gcnTree (.cons k v rest) [] = gcnVal v ([] ++ [k]) ++ gcnTree rest [] from rfl,
        hv]
      apply List.mem_append_left
      rw [show gcnVal (.leaf n) ([] ++ [k]) = [k] from rfl, hk]
      exact List.mem_singleton.mpr rfl
    · rw [if_neg hk] at h
      rw [show gcnTree (.cons k v rest) [] = gcnVal v ([] ++ [k]) ++ gcnTree rest [] from rfl]
      exact List.mem_append_right _ (mem_gcnTree_of_find_leaf key n rest h)

/-- No `_s_`-renamed static column name can equal the reserved iteration
column name. -/
theorem statName_ne_iteration (k : String) : ("_s_" ++ k) ≠ "_iteration" := by
  intro h
  have h2 := congrArg String.data h
  rw [String.data_append] at h2
  have h3 : '_' :: 's' :: '_' :: k.data
      = ['_', 'i', 't', 'e', 'r', 'a', 't', 'i', 'o', 'n'] := h2
  injection h3 with e1 h4
  injection h4 with e2 h5
  exact absurd e2 (by decide)

/-- Claim C9: when some in-range iteration holds `_iteration` as a
top-level scalar, the extended-array header lists the name `_iteration`
twice — the explicitly prepended first column and the generated dynamic
column, which is not excluded. -/
theorem C9_header_iteration_twice (log : Log) (hdr : List String)
    (rows : List (List (Option Value))) (i : Nat) (tree : Tree) (n : Int)
    (hok : log.to_extended_array = .ok (hdr, rows))
    (hi : i < (log.t + 1).toNat)
    (htree : log.d_var[i]? = some tree)
    (hleaf : tree.find "_iteration" = some (.leaf n)) :
    hdr.count "_iteration" = 2 := by
  obtain ⟨gen, hg, hhdr, _⟩ := to_extended_array_ok log hdr rows hok
  unfold Log.generate_columns_names at hg
  have hmem : "_iteration" ∈ gen :=
    gcnAux_ok_mem log _ [] gen hg i (List.mem_range.mpr hi) tree htree "_iteration"
      (mem_gcnTree_of_find_leaf "_iteration" n tree hleaf)
  have hnodup : gen.Nodup := gcnAux_ok_nodup log _ [] gen hg List.nodup_nil
  have hstat : List.count "_iteration" (log.s_var.map (fun kv => "_s_" ++ kv.1)) = 0 := by
    rw [List.count_eq_zero]
    intro hmem2
    obtain ⟨kv, _, hkv⟩ := List.mem_map.mp hmem2
    exact statName_ne_iteration kv.1 hkv
  rw [hhdr]
  rw [show (ITERATION_KEY :: gen ++ log.s_var.map (fun kv => "_s_" ++ kv.1))
      = ITERATION_KEY :: (gen ++ log.s_var.map (fun kv => "_s_" ++ kv.1)) from rfl]
  rw [List.count_cons, List.count_append,
    List.count_eq_one_of_mem hnodup hmem, hstat]
  decide

/-- Witness for C9: the header of the extended array of the concrete
one-iteration log contains `_iteration` twice. -/
theorem C9_header_iteration_twice_witness :
    (["_iteration", "_iteration"] : List String).count "_iteration" = 2 :=
  C9_header_iteration_twice log1c ["_iteration", "_iteration"]
    [[some (.leaf 0), some (.leaf 0)]] 0 (.cons "_iteration" (.leaf 0) .nil) 0
    rfl (by decide) rfl rfl

/-- Claim C7: merging log A (dynamic column `x`) and log B (dynamic column
`y`) produces the combined header `_log_idx, _log_file, _iteration, x, y`;
A's rows hold null under `y` and B's rows null under `x`; `_log_idx` is 0
on A's rows and 1 on B's; rows keep per-log order, concatenated in log
order, with no header row among the data rows. -/
theorem C7_merge_union :
    mergedAB = .ok (["_log_idx", "_log_file", "_iteration", "x", "y"],
      [[.logIdx 0, .logFile "a.log", .val (.leaf 0), .val (.leaf 1), .null],
       [.logIdx 0, .logFile "a.log", .val (.leaf 1), .val (.leaf 2), .null],
       [.logIdx 1, .logFile "b.log", .val (.leaf 0), .null, .val (.leaf 3)],
       [.logIdx 1, .logFile "b.log", .val (.leaf 1), .null, .val (.leaf 4)]]) :=
  rfl

end PymlLog
